import Mathlib

/-!
Shallow embedding of the spot-detection tutorial notebook
(`spot_detection_tutorial_beginner.ipynb`).

Images are modelled as N-dimensional arrays: a shape (list of extents)
together with a flat list of pixel values.  Exact rational arithmetic
stands in for floating point; unsigned-integer pixels are modelled as
naturals reduced modulo `2 ^ w`.  The external library routines the
notebook calls (`scipy.ndimage.gaussian_filter`, `skimage.feature.blob_log`)
are parameters of the embedding, constrained only by their documented
contracts where a claim needs them; the `scipy.spatial.cKDTree` single
nearest-neighbour query is modelled by its documented semantics: the index
of a centroid at minimal Euclidean distance.
-/

namespace SpotTutorial

/-- An N-dimensional numeric array: a shape and a flat list of values. -/
structure NDArray where
  shape : List Nat
  data : List ℚ
deriving Repr, DecidableEq

/-- An N-dimensional unsigned-integer array (values reduced mod `2 ^ w`
by every arithmetic operation, as in numpy unsigned dtypes). -/
structure NDArrayU where
  shape : List Nat
  data : List Nat
deriving Repr, DecidableEq

/-- numpy unsigned subtraction on a `w`-bit dtype: wraparound modulo `2 ^ w`. -/
def usub (w a b : Nat) : Nat := (a + (2 ^ w - b % 2 ^ w)) % 2 ^ w

/-- numpy unsigned addition on a `w`-bit dtype: wraparound modulo `2 ^ w`. -/
def uadd (w a b : Nat) : Nat := (a + b) % 2 ^ w

/-- Embedding of the notebook function `gaussian_high_pass`:
`low_pass = ndi.gaussian_filter(image, sigma); return image - low_pass`.
The library blur is the parameter `gf`; the subtraction is numpy
element-wise subtraction of two same-shaped arrays (exact arithmetic). -/
def gaussian_high_pass (gf : NDArray → ℚ → NDArray) (image : NDArray)
    (sigma : ℚ) : NDArray :=
  let low_pass := gf image sigma
  { shape := image.shape, data := image.data.zipWith (fun a b => a - b) low_pass.data }

/-- Embedding of `gaussian_high_pass` run on an unsigned-integer image of
width `w` bits: `ndi.gaussian_filter` keeps the dtype, and the numpy
subtraction `image - low_pass` wraps modulo `2 ^ w`. -/
def gaussian_high_pass_u (w : Nat) (gf : NDArrayU → ℚ → NDArrayU)
    (image : NDArrayU) (sigma : ℚ) : NDArrayU :=
  let low_pass := gf image sigma
  { shape := image.shape
    data := image.data.zipWith (fun a b => usub w a b) low_pass.data }

/-- Embedding of the notebook function `detect_spots`: filter the image
with `gaussian_high_pass`, run the blob detector
`blob_log(filtered, max_sigma = blob_sigma, num_sigma = 1,
threshold = spot_threshold)`, then return
`(blobs_log[:, 0:2], 3 * blobs_log[:, 2])`.  The detector `bl` is a
parameter taking the image, `max_sigma`, `num_sigma` and `threshold` and
returning its rows (one row per blob). -/
def detect_spots (gf : NDArray → ℚ → NDArray)
    (bl : NDArray → ℚ → Nat → ℚ → List (List ℚ))
    (image : NDArray) (high_pass_sigma : ℚ) (spot_threshold : ℚ)
    (blob_sigma : ℚ) : List (List ℚ) × List ℚ :=
  let filtered_spots := gaussian_high_pass gf image high_pass_sigma
  let blobs_log := bl filtered_spots blob_sigma 1 spot_threshold
  let points_coords := blobs_log.map (fun r => r.take 2)
  let sizes := blobs_log.map (fun r => 3 * r.getD 2 0)
  (points_coords, sizes)

/-- Squared Euclidean distance between two planar points. -/
def sqDist (p q : ℚ × ℚ) : ℚ := (p.1 - q.1) ^ 2 + (p.2 - q.2) ^ 2

/-- Index of the first minimal entry of a list of distances (0 on the
empty list). -/
def argminIdx : List ℚ → Nat
  | [] => 0
  | [_] => 0
  | a :: b :: l =>
    let j := argminIdx (b :: l)
    if a ≤ (b :: l).getD j 0 then 0 else j + 1

/-- Model of `cKDTree(centroids).query(p, k=1)`: the index of a centroid
at minimal Euclidean distance from `p` (tie-breaking in the tree is
implementation-defined; the model takes the first minimiser). -/
def kdtree_query (centroids : List (ℚ × ℚ)) (p : ℚ × ℚ) : Nat :=
  argminIdx (centroids.map (fun c => sqDist p c))

/-- Embedding of the nearest-nucleus assignment cell of the notebook:
`_, ind = cKDTree(nuclei_centroids).query(spot_coords, k=1);
nearest_nucleus_label = rp_table["label"][ind]`. -/
def nearest_nucleus_label (labels : List Nat) (centroids : List (ℚ × ℚ))
    (spots : List (ℚ × ℚ)) : List Nat :=
  spots.map (fun s => labels.getD (kdtree_query centroids s) 0)

/-- Insert a value into a sorted duplicate-free list, keeping it sorted
and duplicate-free. -/
def insertSorted (x : Nat) : List Nat → List Nat
  | [] => [x]
  | a :: l =>
    if x < a then x :: a :: l
    else if x = a then a :: l
    else a :: insertSorted x l

/-- The sorted list of distinct elements of a list. -/
def sortedUnique (l : List Nat) : List Nat := l.foldr insertSorted []

/-- Model of the label column of `regionprops_table(nuclei_labels)`: the sorted list
of the distinct strictly positive values occurring in the label image
(`regionprops` enumerates the positive region labels in increasing
order; 0 is background and is skipped). -/
def rp_labels (img : List (List Nat)) : List Nat :=
  sortedUnique ((img.flatten).filter (fun v => 0 < v))

theorem argminIdx_nil : argminIdx [] = 0 := rfl

theorem argminIdx_single (a : ℚ) : argminIdx [a] = 0 := rfl

theorem argminIdx_cons_cons (a b : ℚ) (l : List ℚ) :
    argminIdx (a :: b :: l) =
      if a ≤ (b :: l).getD (argminIdx (b :: l)) 0 then 0
      else argminIdx (b :: l) + 1 := rfl

theorem argminIdx_lt_length : ∀ (l : List ℚ), l ≠ [] → argminIdx l < l.length
  | [], h => absurd rfl h
  | [_], _ => by rw [argminIdx_single]; simp
  | a :: b :: l, _ => by
    have ih := argminIdx_lt_length (b :: l) (by simp)
    rw [argminIdx_cons_cons]
    by_cases hc : a ≤ (b :: l).getD (argminIdx (b :: l)) 0
    · rw [if_pos hc]; simp
    · rw [if_neg hc]
      simp only [List.length_cons] at ih ⊢
      omega

theorem argminIdx_min : ∀ (l : List ℚ) (j : Nat), j < l.length →
    l.getD (argminIdx l) 0 ≤ l.getD j 0
  | [], j, hj => by simp at hj
  | [a], j, hj => by
    have hj0 : j = 0 := by simpa [Nat.lt_one_iff] using hj
    subst hj0
    rw [argminIdx_single]
  | a :: b :: l, j, hj => by
    rw [argminIdx_cons_cons]
    by_cases hc : a ≤ (b :: l).getD (argminIdx (b :: l)) 0
    · rw [if_pos hc]
      match j with
      | 0 => exact le_refl _
      | j + 1 =>
        have ih := argminIdx_min (b :: l) j (by simpa using hj)
        rw [List.getD_cons_zero, List.getD_cons_succ]
        exact le_trans hc ih
    · rw [if_neg hc, List.getD_cons_succ]
      match j with
      | 0 =>
        rw [List.getD_cons_zero]
        exact le_of_lt (lt_of_not_le hc)
      | j + 1 =>
        rw [List.getD_cons_succ]
        exact argminIdx_min (b :: l) j (by simpa using hj)

theorem argminIdx_unique : ∀ (l : List ℚ) (i : Nat), i < l.length →
    (∀ j, j < l.length → j ≠ i → l.getD i 0 < l.getD j 0) → argminIdx l = i
  | [], i, hi, _ => by simp at hi
  | [a], i, hi, _ => by
    have hi0 : i = 0 := by simpa [Nat.lt_one_iff] using hi
    subst hi0
    rw [argminIdx_single]
  | a :: b :: l, i, hi, hmin => by
    match i with
    | 0 =>
      have hj := argminIdx_lt_length (b :: l) (by simp)
      have hlt := hmin (argminIdx (b :: l) + 1) (by simp only [List.length_cons] at hj ⊢; omega)
        (by simp)
      rw [List.getD_cons_zero, List.getD_cons_succ] at hlt
      rw [argminIdx_cons_cons, if_pos (le_of_lt hlt)]
    | i + 1 =>
      have ih := argminIdx_unique (b :: l) i (by simpa using hi) (by
        intro j hj hji
        have := hmin (j + 1) (by simpa using hj) (by omega)
        simpa using this)
      have ha := hmin 0 (by simp) (by omega)
      rw [List.getD_cons_zero, List.getD_cons_succ] at ha
      rw [argminIdx_cons_cons, ih, if_neg (not_le.mpr ha)]

end SpotTutorial
namespace SpotTutorial

theorem getD_map_sqDist (s : ℚ × ℚ) (cs : List (ℚ × ℚ)) (j : Nat)
    (hj : j < cs.length) :
    (cs.map (fun c => sqDist s c)).getD j 0 = sqDist s (cs.getD j (0, 0)) := by
  rw [List.getD_eq_getElem _ _ (by simpa using hj), List.getD_eq_getElem _ _ hj,
    List.getElem_map]

theorem kdtree_query_lt (centroids : List (ℚ × ℚ)) (s : ℚ × ℚ)
    (hM : 0 < centroids.length) :
    kdtree_query centroids s < centroids.length := by
  have h := argminIdx_lt_length (centroids.map (fun c => sqDist s c))
    (by simp; intro h; simp [h] at hM)
  simpa using h

theorem kdtree_query_min (centroids : List (ℚ × ℚ)) (s : ℚ × ℚ) (j : Nat)
    (hj : j < centroids.length) :
    sqDist s (centroids.getD (kdtree_query centroids s) (0, 0)) ≤
      sqDist s (centroids.getD j (0, 0)) := by
  have hM : 0 < centroids.length := Nat.pos_of_ne_zero (by omega)
  have hq := kdtree_query_lt centroids s hM
  have h := argminIdx_min (centroids.map (fun c => sqDist s c)) j (by simpa using hj)
  simp only [kdtree_query] at hq ⊢
  rwa [getD_map_sqDist s centroids j hj, getD_map_sqDist s centroids _ hq] at h

theorem kdtree_query_unique (centroids : List (ℚ × ℚ)) (s : ℚ × ℚ) (i : Nat)
    (hi : i < centroids.length)
    (hstrict : ∀ j, j < centroids.length → j ≠ i →
      sqDist s (centroids.getD i (0, 0)) < sqDist s (centroids.getD j (0, 0))) :
    kdtree_query centroids s = i := by
  apply argminIdx_unique _ i (by simpa using hi)
  intro j hj hji
  rw [getD_map_sqDist s centroids i hi, getD_map_sqDist s centroids j (by simpa using hj)]
  exact hstrict j (by simpa using hj) hji


/-- C1: for every spot and every non-empty labelled centroid set, the
nearest-nucleus assignment returns the label of a centroid at minimal
Euclidean distance; a spot strictly closer to one centroid than to every
other (which covers a spot equal to a centroid, distance zero) is
assigned the label of that centroid. -/
theorem C1_nearest_nucleus_assignment
    (labels : List Nat) (centroids : List (ℚ × ℚ))
    (hM : 0 < centroids.length) (_hlen : labels.length = centroids.length) :
    (∀ s : ℚ × ℚ,
      kdtree_query centroids s < centroids.length ∧
      (∀ j, j < centroids.length →
        sqDist s (centroids.getD (kdtree_query centroids s) (0, 0)) ≤
          sqDist s (centroids.getD j (0, 0)))) ∧
    (∀ spots : List (ℚ × ℚ), ∀ k, k < spots.length →
      (nearest_nucleus_label labels centroids spots).getD k 0 =
        labels.getD (kdtree_query centroids (spots.getD k (0, 0))) 0) ∧
    (∀ s : ℚ × ℚ, ∀ i, i < centroids.length →
      (∀ j, j < centroids.length → j ≠ i →
        sqDist s (centroids.getD i (0, 0)) < sqDist s (centroids.getD j (0, 0))) →
      nearest_nucleus_label labels centroids [s] = [labels.getD i 0]) := by
  refine ⟨fun s => ⟨kdtree_query_lt centroids s hM, fun j hj => kdtree_query_min centroids s j hj⟩,
    fun spots k hk => ?_, fun s i hi hstrict => ?_⟩
  · unfold nearest_nucleus_label
    rw [List.getD_eq_getElem _ _ (by simpa using hk), List.getElem_map,
      List.getD_eq_getElem _ _ hk]
  · unfold nearest_nucleus_label
    simp only [List.map_cons, List.map_nil]
    rw [kdtree_query_unique centroids s i hi hstrict]

/-- Witness for C1: with centroids (0,0) labelled 1 and (100,100)
labelled 2, the spot (1,1) is assigned label 1 and the spot (99,99) is
assigned label 2. -/
theorem C1_nearest_nucleus_assignment_witness :
    nearest_nucleus_label [1, 2] [(0, 0), (100, 100)] [(1, 1)] = [1] ∧
    nearest_nucleus_label [1, 2] [(0, 0), (100, 100)] [(99, 99)] = [2] := by
  have h := C1_nearest_nucleus_assignment [1, 2] [(0, 0), (100, 100)]
    (by norm_num) (by norm_num)
  constructor
  · have h1 := h.2.2 (1, 1) 0 (by norm_num) (by
      intro j hj hji
      match j, hj, hji with
      | 1, _, _ => norm_num [sqDist]
      | 0, _, hji => exact absurd rfl hji)
    simpa using h1
  · have h2 := h.2.2 (99, 99) 1 (by norm_num) (by
      intro j hj hji
      match j, hj, hji with
      | 0, _, _ => norm_num [sqDist]
      | 1, _, hji => exact absurd rfl hji)
    simpa using h2

/-- C6: with at least one centroid and a label array of matching length,
the nearest-neighbour index is always within bounds, the per-spot label
lookup hits an actual entry of the label array, and every assigned label
is an element of the label array. -/
theorem C6_assignment_in_bounds
    (labels : List Nat) (centroids : List (ℚ × ℚ))
    (hM : 0 < centroids.length) (hlen : labels.length = centroids.length) :
    ∀ s : ℚ × ℚ,
      kdtree_query centroids s < labels.length ∧
      labels.getD (kdtree_query centroids s) 0 ∈ labels ∧
      ∀ spots : List (ℚ × ℚ), ∀ x ∈ nearest_nucleus_label labels centroids spots,
        x ∈ labels := by
  intro s
  have hq : ∀ t : ℚ × ℚ, kdtree_query centroids t < labels.length := fun t => by
    rw [hlen]; exact kdtree_query_lt centroids t hM
  refine ⟨hq s, ?_, ?_⟩
  · rw [List.getD_eq_getElem _ _ (hq s)]
    exact List.getElem_mem _
  · intro spots x hx
    unfold nearest_nucleus_label at hx
    obtain ⟨t, _, rfl⟩ := List.mem_map.mp hx
    rw [List.getD_eq_getElem _ _ (hq t)]
    exact List.getElem_mem _

/-- Witness for C6: with two centroids and labels 5, 9, the query index
for the spot (3,4) is in bounds and its assigned label occurs among the
labels. -/
theorem C6_assignment_in_bounds_witness :
    kdtree_query [(0, 0), (10, 0)] (3, 4) < 2 ∧
    List.getD [5, 9] (kdtree_query [(0, 0), (10, 0)] (3, 4)) 0 ∈ [5, 9] := by
  have h := C6_assignment_in_bounds [5, 9] [(0, 0), (10, 0)]
    (by norm_num) (by norm_num) (3, 4)
  exact ⟨h.1, h.2.1⟩


theorem mem_insertSorted (x y : Nat) : ∀ (l : List Nat),
    (y ∈ insertSorted x l ↔ y = x ∨ y ∈ l)
  | [] => by simp [insertSorted]
  | a :: l => by
    unfold insertSorted
    by_cases h1 : x < a
    · simp [h1]
    · rw [if_neg h1]
      by_cases h2 : x = a
      · subst h2
        simp [h1]
      · rw [if_neg h2]
        simp only [List.mem_cons, mem_insertSorted x y l]
        tauto

theorem mem_sortedUnique (y : Nat) : ∀ (l : List Nat), y ∈ sortedUnique l ↔ y ∈ l
  | [] => by simp [sortedUnique]
  | a :: l => by
    have ih := mem_sortedUnique y l
    simp only [sortedUnique, List.foldr_cons] at ih ⊢
    rw [mem_insertSorted, ih, List.mem_cons]

theorem mem_rp_labels (img : List (List Nat)) (y : Nat) :
    y ∈ rp_labels img ↔ 0 < y ∧ ∃ row ∈ img, y ∈ row := by
  unfold rp_labels
  rw [mem_sortedUnique, List.mem_filter, List.mem_flatten]
  simp [and_comm]

/-- C9: when the label image contains at least one positive label and the
centroid list is row-aligned with the region-property label column, every
label the assignment produces is strictly positive and occurs in the
label image; background 0 is never assigned. -/
theorem C9_assigned_labels_positive
    (img : List (List Nat)) (centroids : List (ℚ × ℚ)) (spots : List (ℚ × ℚ))
    (hpos : ∃ row ∈ img, ∃ v ∈ row, 0 < v)
    (hcent : centroids.length = (rp_labels img).length) :
    ∀ x ∈ nearest_nucleus_label (rp_labels img) centroids spots,
      (0 < x ∧ ∃ row ∈ img, x ∈ row) ∧ x ≠ 0 := by
  obtain ⟨row, hrow, v, hv, hvpos⟩ := hpos
  have hvmem : v ∈ rp_labels img := (mem_rp_labels img v).mpr ⟨hvpos, row, hrow, hv⟩
  have hlen : 0 < (rp_labels img).length := List.length_pos.mpr (by
    intro h
    rw [h] at hvmem
    exact absurd hvmem (List.not_mem_nil v))
  intro x hx
  unfold nearest_nucleus_label at hx
  obtain ⟨t, _, rfl⟩ := List.mem_map.mp hx
  have hq : kdtree_query centroids t < (rp_labels img).length := by
    rw [← hcent] at hlen ⊢
    exact kdtree_query_lt centroids t hlen
  have hmem : (rp_labels img).getD (kdtree_query centroids t) 0 ∈ rp_labels img := by
    rw [List.getD_eq_getElem _ _ hq]
    exact List.getElem_mem _
  have h := (mem_rp_labels img _).mp hmem
  exact ⟨h, by omega⟩

/-- Witness for C9: on the label image with regions 2 and 7, the spot
(0,0) is assigned the label 2, which is positive and occurs in the image. -/
theorem C9_assigned_labels_positive_witness :
    ((0 : Nat) < 2 ∧ ∃ row ∈ [[0, 2], [7, 0]], 2 ∈ row) ∧ (2 : Nat) ≠ 0 :=
  C9_assigned_labels_positive [[0, 2], [7, 0]] [(0, 0), (1, 1)] [(0, 0)]
    (by decide) (by decide) 2
    (by norm_num [nearest_nucleus_label, rp_labels, sortedUnique, insertSorted,
      kdtree_query, argminIdx, sqDist])


theorem uadd_usub (w a b : Nat) (ha : a < 2 ^ w) (hb : b < 2 ^ w) :
    uadd w (usub w a b) b = a := by
  unfold uadd usub
  rw [Nat.mod_eq_of_lt hb]
  rcases le_or_lt b a with hba | hab
  · have h1 : a + (2 ^ w - b) = a - b + 2 ^ w := by omega
    rw [h1, Nat.add_mod_right, Nat.mod_eq_of_lt (by omega : a - b < 2 ^ w)]
    have h2 : a - b + b = a := by omega
    rw [h2, Nat.mod_eq_of_lt ha]
  · rw [Nat.mod_eq_of_lt (by omega : a + (2 ^ w - b) < 2 ^ w)]
    have h2 : a + (2 ^ w - b) + b = a + 2 ^ w := by omega
    rw [h2, Nat.add_mod_right, Nat.mod_eq_of_lt ha]

theorem zipWith_sub_add : ∀ (A B : List ℚ), B.length = A.length →
    (A.zipWith (fun a b => a - b) B).zipWith (fun x y => x + y) B = A
  | [], _, _ => by simp
  | a :: A, [], h => by simp at h
  | a :: A, b :: B, h => by
    simp only [List.zipWith_cons_cons]
    rw [zipWith_sub_add A B (by simpa using h)]
    have hab : a - b + b = a := by ring
    rw [hab]

theorem zipWith_usub_uadd (w : Nat) : ∀ (A B : List Nat), B.length = A.length →
    (∀ v ∈ A, v < 2 ^ w) → (∀ v ∈ B, v < 2 ^ w) →
    (A.zipWith (fun a b => usub w a b) B).zipWith (fun x y => uadd w x y) B = A
  | [], _, _, _, _ => by simp
  | a :: A, [], h, _, _ => by simp at h
  | a :: A, b :: B, h, hA, hB => by
    simp only [List.zipWith_cons_cons]
    rw [zipWith_usub_uadd w A B (by simpa using h)
      (fun v hv => hA v (List.mem_cons_of_mem a hv))
      (fun v hv => hB v (List.mem_cons_of_mem b hv))]
    rw [uadd_usub w a b (hA a (List.mem_cons_self a A)) (hB b (List.mem_cons_self b B))]

/-- C2: `gaussian_high_pass` keeps the shape of its input, and adding the
Gaussian-blurred image back reconstructs the input exactly, both in exact
(rational-valued) arithmetic and for unsigned-integer images where the
subtraction and addition wrap modulo `2 ^ w`. -/
theorem C2_high_pass_reconstruction
    (gf : NDArray → ℚ → NDArray) (image : NDArray) (sigma : ℚ)
    (gfu : NDArrayU → ℚ → NDArrayU) (w : Nat) (imageU : NDArrayU)
    (hgf : (gf image sigma).data.length = image.data.length)
    (hgfu : (gfu imageU sigma).data.length = imageU.data.length)
    (hdtyI : ∀ v ∈ imageU.data, v < 2 ^ w)
    (hdtyL : ∀ v ∈ (gfu imageU sigma).data, v < 2 ^ w) :
    ((gaussian_high_pass gf image sigma).shape = image.shape ∧
     (gaussian_high_pass gf image sigma).data.length = image.data.length ∧
     (gaussian_high_pass gf image sigma).data.zipWith (fun x y => x + y)
       (gf image sigma).data = image.data) ∧
    ((gaussian_high_pass_u w gfu imageU sigma).shape = imageU.shape ∧
     (gaussian_high_pass_u w gfu imageU sigma).data.length = imageU.data.length ∧
     (gaussian_high_pass_u w gfu imageU sigma).data.zipWith (fun x y => uadd w x y)
       (gfu imageU sigma).data = imageU.data) := by
  refine ⟨⟨rfl, ?_, ?_⟩, rfl, ?_, ?_⟩
  · simp [gaussian_high_pass, hgf]
  · exact zipWith_sub_add image.data (gf image sigma).data hgf
  · simp [gaussian_high_pass_u, hgfu]
  · exact zipWith_usub_uadd w imageU.data (gfu imageU sigma).data hgfu hdtyI hdtyL

/-- Witness for C2: a concrete 8-bit image whose blur is taken to be the
constant array `[250, 10]`; the wrapped high-pass plus the blur gives the
image back, and the exact-arithmetic high-pass of `[1, 2, 3, 4]` under the
identity blur reconstructs as well. -/
theorem C2_high_pass_reconstruction_witness :
    (gaussian_high_pass (fun i _ => i) ⟨[2, 2], [1, 2, 3, 4]⟩ 2).data.zipWith
      (fun x y => x + y) ((fun (i : NDArray) (_ : ℚ) => i) ⟨[2, 2], [1, 2, 3, 4]⟩ 2).data
      = [1, 2, 3, 4] ∧
    (gaussian_high_pass_u 8 (fun _ _ => ⟨[2], [250, 10]⟩) ⟨[2], [7, 200]⟩ 2).data.zipWith
      (fun x y => uadd 8 x y) [250, 10] = [7, 200] := by
  have h := C2_high_pass_reconstruction (fun i _ => i) ⟨[2, 2], [1, 2, 3, 4]⟩ 2
    (fun _ _ => ⟨[2], [250, 10]⟩) 8 ⟨[2], [7, 200]⟩ rfl rfl (by decide) (by decide)
  exact ⟨h.1.2.2, h.2.2.2⟩


/-- C3: `detect_spots` is exactly the composition of the high-pass filter
with the blob detector called at `max_sigma = blob_sigma`, `num_sigma = 1`
and `threshold = spot_threshold`, its first result the first two columns
of the detector output and its second result 3 times the third column. -/
theorem C3_detect_spots_is_composition
    (gf : NDArray → ℚ → NDArray) (bl : NDArray → ℚ → Nat → ℚ → List (List ℚ))
    (image : NDArray) (high_pass_sigma spot_threshold blob_sigma : ℚ) :
    detect_spots gf bl image high_pass_sigma spot_threshold blob_sigma =
      ((bl (gaussian_high_pass gf image high_pass_sigma) blob_sigma 1 spot_threshold).map
         (fun r => r.take 2),
       (bl (gaussian_high_pass gf image high_pass_sigma) blob_sigma 1 spot_threshold).map
         (fun r => 3 * r.getD 2 0)) := rfl

/-- C4: the coordinate list and the size list returned by `detect_spots`
always have the same length. -/
theorem C4_coords_sizes_same_length
    (gf : NDArray → ℚ → NDArray) (bl : NDArray → ℚ → Nat → ℚ → List (List ℚ))
    (image : NDArray) (high_pass_sigma spot_threshold blob_sigma : ℚ) :
    (detect_spots gf bl image high_pass_sigma spot_threshold blob_sigma).1.length =
      (detect_spots gf bl image high_pass_sigma spot_threshold blob_sigma).2.length := by
  simp [detect_spots]

theorem zipWith_sub_self (l : List ℚ) :
    l.zipWith (fun a b => a - b) l = l.map (fun _ => 0) := by
  induction l with
  | nil => simp
  | cons a l ih => simp [ih]

/-- C5: on an all-constant image, a strictly positive threshold yields no
detections, given the library contracts that Gaussian blur maps a constant
array to itself and that the blob detector reports nothing on an
identically-zero array with a positive threshold; and whenever the
detector reports zero blobs, `detect_spots` returns two empty arrays. -/
theorem C5_constant_image_no_detections
    (gf : NDArray → ℚ → NDArray) (bl : NDArray → ℚ → Nat → ℚ → List (List ℚ))
    (image : NDArray) (c high_pass_sigma spot_threshold blob_sigma : ℚ)
    (ht : 0 < spot_threshold)
    (hconst : ∀ v ∈ image.data, v = c)
    (hgf : ∀ (img : NDArray) (σ d : ℚ), (∀ v ∈ img.data, v = d) →
      (gf img σ).data = img.data)
    (hbl : ∀ (img : NDArray) (σ : ℚ) (n : Nat) (th : ℚ), 0 < th →
      (∀ v ∈ img.data, v = 0) → bl img σ n th = []) :
    detect_spots gf bl image high_pass_sigma spot_threshold blob_sigma = ([], []) ∧
    ∀ (img2 : NDArray) (s2 t2 b2 : ℚ),
      bl (gaussian_high_pass gf img2 s2) b2 1 t2 = [] →
      detect_spots gf bl img2 s2 t2 b2 = ([], []) := by
  constructor
  · have hzero : ∀ v ∈ (gaussian_high_pass gf image high_pass_sigma).data, v = 0 := by
      simp only [gaussian_high_pass]
      rw [hgf image high_pass_sigma c hconst, zipWith_sub_self]
      intro v hv
      obtain ⟨u, _, rfl⟩ := List.mem_map.mp hv
      rfl
    simp only [detect_spots]
    rw [hbl _ _ _ _ ht hzero]
    rfl
  · intro img2 s2 t2 b2 hempty
    simp only [detect_spots]
    rw [hempty]
    rfl

/-- Witness for C5: the constant image `[5]` with threshold 1/100 yields
no detections under library models satisfying the contracts. -/
theorem C5_constant_image_no_detections_witness :
    detect_spots (fun i _ => i) (fun _ _ _ _ => []) ⟨[1], [5]⟩ 2 (1 / 100) 2 = ([], []) :=
  (C5_constant_image_no_detections (fun i _ => i) (fun _ _ _ _ => [])
    ⟨[1], [5]⟩ 5 2 (1 / 100) 2 (by norm_num)
    (by intro v hv; simpa using hv)
    (by intro img σ d hd; rfl)
    (by intro img σ n th hth hz; rfl)).1

/-- C7: `detect_spots` is deterministic: two element-wise identical images
with identical parameters give element-wise identical results. -/
theorem C7_detect_spots_deterministic
    (gf : NDArray → ℚ → NDArray) (bl : NDArray → ℚ → Nat → ℚ → List (List ℚ))
    (img1 img2 : NDArray) (high_pass_sigma spot_threshold blob_sigma : ℚ)
    (hshape : img1.shape = img2.shape)
    (hlen : img1.data.length = img2.data.length)
    (hdata : ∀ k, k < img1.data.length → img1.data.getD k 0 = img2.data.getD k 0) :
    detect_spots gf bl img1 high_pass_sigma spot_threshold blob_sigma =
      detect_spots gf bl img2 high_pass_sigma spot_threshold blob_sigma := by
  have hd : img1.data = img2.data := by
    apply List.ext_getElem hlen
    intro i h1 h2
    have := hdata i h1
    rwa [List.getD_eq_getElem _ _ h1, List.getD_eq_getElem _ _ h2] at this
  have himg : img1 = img2 := by
    cases img1
    cases img2
    simp_all
  rw [himg]

/-- Witness for C7: two syntactically different writings of the same
image give the same detection result. -/
theorem C7_detect_spots_deterministic_witness :
    detect_spots (fun i _ => i) (fun img _ _ _ => [img.data]) ⟨[2], [1, 2]⟩ 2 (1 / 100) 2 =
      detect_spots (fun i _ => i) (fun img _ _ _ => [img.data]) ⟨[2], [1, 1 + 1]⟩ 2 (1 / 100) 2 :=
  C7_detect_spots_deterministic (fun i _ => i) (fun img _ _ _ => [img.data])
    ⟨[2], [1, 2]⟩ ⟨[2], [1, 1 + 1]⟩ 2 (1 / 100) 2 rfl (by norm_num)
    (by
      intro k hk
      simp only [List.length_cons, List.length_nil] at hk
      match k with
      | 0 => norm_num
      | 1 => norm_num
      | k + 2 => omega)

/-- C10: the coordinate rows returned by `detect_spots` always have
exactly two entries whenever the detector rows have at least two, the
size entries always come from column 2 of the detector output, and for a
detector emitting rows of width `D + 1` with `D > 2` (a `D`-dimensional
image) no coordinate row has the `D` entries the docstring promises. -/
theorem C10_coords_always_two_columns
    (gf : NDArray → ℚ → NDArray) (bl : NDArray → ℚ → Nat → ℚ → List (List ℚ))
    (image : NDArray) (high_pass_sigma spot_threshold blob_sigma : ℚ)
    (hrows : ∀ r ∈ bl (gaussian_high_pass gf image high_pass_sigma) blob_sigma 1
      spot_threshold, 2 ≤ r.length) :
    (∀ p ∈ (detect_spots gf bl image high_pass_sigma spot_threshold blob_sigma).1,
      p.length = 2) ∧
    (∀ k, k < (bl (gaussian_high_pass gf image high_pass_sigma) blob_sigma 1
        spot_threshold).length →
      (detect_spots gf bl image high_pass_sigma spot_threshold blob_sigma).2.getD k 0 =
        3 * ((bl (gaussian_high_pass gf image high_pass_sigma) blob_sigma 1
          spot_threshold).getD k []).getD 2 0) ∧
    (∀ D, 2 < D →
      ∀ p ∈ (detect_spots gf bl image high_pass_sigma spot_threshold blob_sigma).1,
        p.length ≠ D) := by
  have hcoord : ∀ p ∈ (detect_spots gf bl image high_pass_sigma spot_threshold
      blob_sigma).1, p.length = 2 := by
    intro p hp
    unfold detect_spots at hp
    obtain ⟨r, hr, rfl⟩ := List.mem_map.mp hp
    have := hrows r hr
    simp only [List.length_take]
    omega
  refine ⟨hcoord, fun k hk => ?_, fun D hD p hp => ?_⟩
  · unfold detect_spots
    rw [List.getD_eq_getElem _ _ (by simpa using hk), List.getElem_map,
      List.getD_eq_getElem _ _ hk]
  · rw [hcoord p hp]
    omega

/-- Witness for C10: a detector row of width 4 (a 3-D blob) still yields
a two-entry coordinate row, and the size is 3 times entry 2 of the row
(a coordinate, not the scale at entry 3). -/
theorem C10_coords_always_two_columns_witness :
    (∀ p ∈ (detect_spots (fun i _ => i) (fun _ _ _ _ => [[1, 2, 3, 4]])
      ⟨[1], [0]⟩ 2 (1 / 100) 2).1, p.length = 2) ∧
    (detect_spots (fun i _ => i) (fun _ _ _ _ => [[1, 2, 3, 4]])
      ⟨[1], [0]⟩ 2 (1 / 100) 2).2.getD 0 0 = 3 * 3 := by
  have h := C10_coords_always_two_columns (fun i _ => i) (fun _ _ _ _ => [[1, 2, 3, 4]])
    ⟨[1], [0]⟩ 2 (1 / 100) 2 (by intro r hr; simp at hr; simp [hr])
  refine ⟨h.1, ?_⟩
  have h2 := h.2.1 0 (by norm_num)
  rw [h2]
  norm_num


/-- The fixed 10-entry RGBA palette defined in the notebook cell
`color_cycle`, each channel scaled by 10^8 to an exact integer. -/
def color_cycle : List (List Nat) := [
  [12156863, 46666667, 70588235, 100000000],
  [100000000, 49803922, 5490196, 100000000],
  [17254902, 62745098, 17254902, 100000000],
  [83921569, 15294118, 15686275, 100000000],
  [58039216, 40392157, 74117647, 100000000],
  [54901961, 33725490, 29411765, 100000000],
  [89019608, 46666667, 76078431, 100000000],
  [49803922, 49803922, 49803922, 100000000],
  [73725490, 74117647, 13333333, 100000000],
  [9019608, 74509804, 81176471, 100000000]]

/-- Distinct elements of a list in order of first appearance, skipping
those already seen. -/
def firstSeenAux (seen : List Nat) : List Nat → List Nat
  | [] => []
  | a :: l => if a ∈ seen then firstSeenAux seen l else a :: firstSeenAux (a :: seen) l

/-- The distinct nucleus labels in order of first appearance. -/
def firstSeen (labels : List Nat) : List Nat := firstSeenAux [] labels

/-- Modelled from the spec: the napari categorical color-cycle face-color
mapping, which is not part of the code of the notebook itself, assigns to a label
the palette entry at position `k mod 10` where `k` is the rank of the label in
order of first appearance. -/
def labelColor (labels : List Nat) (x : Nat) : List Nat :=
  color_cycle.getD ((firstSeen labels).indexOf x % color_cycle.length) []

theorem not_mem_seen_of_mem_firstSeenAux :
    ∀ (l seen : List Nat) (x : Nat), x ∈ firstSeenAux seen l → x ∉ seen
  | [], seen, x, hx => by simp [firstSeenAux] at hx
  | a :: l, seen, x, hx => by
    unfold firstSeenAux at hx
    by_cases ha : a ∈ seen
    · rw [if_pos ha] at hx
      exact not_mem_seen_of_mem_firstSeenAux l seen x hx
    · rw [if_neg ha] at hx
      rcases List.mem_cons.mp hx with rfl | hx2
      · exact ha
      · intro hmem
        exact not_mem_seen_of_mem_firstSeenAux l (a :: seen) x hx2
          (List.mem_cons_of_mem a hmem)

theorem nodup_firstSeenAux : ∀ (l seen : List Nat), (firstSeenAux seen l).Nodup
  | [], seen => by simp [firstSeenAux]
  | a :: l, seen => by
    unfold firstSeenAux
    by_cases ha : a ∈ seen
    · rw [if_pos ha]
      exact nodup_firstSeenAux l seen
    · rw [if_neg ha]
      refine List.nodup_cons.mpr ⟨?_, nodup_firstSeenAux l (a :: seen)⟩
      intro hmem
      exact not_mem_seen_of_mem_firstSeenAux l (a :: seen) a hmem (List.mem_cons_self a seen)

theorem nodup_firstSeen (labels : List Nat) : (firstSeen labels).Nodup :=
  nodup_firstSeenAux labels []

theorem color_cycle_getD_injective :
    ∀ i < 10, ∀ j < 10, color_cycle.getD i [] = color_cycle.getD j [] → i = j := by
  decide

/-- C8: the k-th distinct nucleus label in first-appearance order is
given the palette entry at position `k mod 10`; for at most 10 distinct
labels the mapping is injective, and beyond that colors repeat with
period 10 in first-appearance order. -/
theorem C8_color_cycle_mapping (labels : List Nat) :
    (∀ k, k < (firstSeen labels).length →
      labelColor labels ((firstSeen labels).getD k 0) = color_cycle.getD (k % 10) []) ∧
    ((firstSeen labels).length ≤ 10 →
      ∀ i j, i < (firstSeen labels).length → j < (firstSeen labels).length →
        labelColor labels ((firstSeen labels).getD i 0) =
          labelColor labels ((firstSeen labels).getD j 0) → i = j) ∧
    (∀ k, k + 10 < (firstSeen labels).length →
      labelColor labels ((firstSeen labels).getD (k + 10) 0) =
        labelColor labels ((firstSeen labels).getD k 0)) := by
  have hrank : ∀ k, (hk : k < (firstSeen labels).length) →
      labelColor labels ((firstSeen labels).getD k 0) =
        color_cycle.getD (k % 10) [] := by
    intro k hk
    unfold labelColor
    rw [List.getD_eq_getElem _ _ hk, List.indexOf_getElem (nodup_firstSeen labels) k hk]
    rfl
  refine ⟨hrank, fun hle i j hi hj heq => ?_, fun k hk => ?_⟩
  · rw [hrank i hi, hrank j hj] at heq
    rw [Nat.mod_eq_of_lt (by omega), Nat.mod_eq_of_lt (by omega)] at heq
    exact color_cycle_getD_injective i (by omega) j (by omega) heq
  · rw [hrank (k + 10) hk, hrank k (by omega), Nat.add_mod_right]

/-- Witness for C8: with labels `[4, 4, 7, 4, 9]` the second distinct
label 7 gets palette entry 1, and the colors of the distinct labels 4 and
7 differ. -/
theorem C8_color_cycle_mapping_witness :
    labelColor [4, 4, 7, 4, 9] 7 = color_cycle.getD 1 [] ∧
    labelColor [4, 4, 7, 4, 9] 4 ≠ labelColor [4, 4, 7, 4, 9] 7 := by
  have h := C8_color_cycle_mapping [4, 4, 7, 4, 9]
  constructor
  · have h1 := h.1 1 (by decide)
    rw [show (firstSeen [4, 4, 7, 4, 9]).getD 1 0 = 7 from by decide] at h1
    exact h1
  · intro heq
    have h01 := h.2.1 (by decide) 0 1 (by decide) (by decide)
    rw [show (firstSeen [4, 4, 7, 4, 9]).getD 0 0 = 4 from by decide,
      show (firstSeen [4, 4, 7, 4, 9]).getD 1 0 = 7 from by decide] at h01
    exact absurd (h01 heq) (by decide)

end SpotTutorial
